import Mathlib

/-!
Verification of the `Adobe-Connect-The-Dots` repository: a shallow embedding of
`process_pdfs.py` (outline extraction, "pipeline 1a") and
`round1b_processor_advanced.py` (section extraction and persona ranking,
"pipeline 1b"), together with theorems settling the frozen claims about the
natural-language specification.

The Python code manipulates Unicode strings.  We model a character as a record
of its code point together with the Unicode facts the code queries through
`unicodedata.category`, `str.isupper`, `str.split` and friends:
whether it is a letter (general category `L*`), whether it is whitespace,
whether it is cased, and whether it has the `Uppercase` property (which is what
`str.isupper` tests on a one-character string).  A Python string is a list of
such characters.

Numbers: the source manipulates IEEE floats, whose bit-level behaviour is out
of scope; the embedding uses exact arithmetic.  A font size is kept in integer
TENTHS of a point, so that the code's `round(x, 1)` is exact: the size of a
collapsed line is the half-to-even rounding of the exact quotient
(sum of sizes) / (span count), computed by `roundQuot`.  Span coordinates are
integers (the clustering tolerances 2 and 3 are in the same unit); the average
`y0` of a 1a line is kept as an exact fraction (sum, count) and compared by
cross-multiplication.  Similarity scores are rationals that are only ever
compared, never computed with.
-/

/-- A Unicode character as seen by the Python code: its code point plus the
character classifications the code consults. -/
structure UChar where
  code : Nat
  letter : Bool
  white : Bool
  cased : Bool
  upper : Bool
deriving DecidableEq, Repr

/-- A Python string: a list of characters. -/
abbrev PStr := List UChar

/-- The ASCII space character. -/
def spaceChar : UChar := ⟨32, false, true, false, false⟩

/-- Real Unicode satisfies: the `Uppercase` property implies `Cased`, and
whitespace characters are not letters.  Our character model does not bake this
in; theorems that need it take it as a hypothesis. -/
def UChar.wf (c : UChar) : Prop :=
  (c.upper = true → c.cased = true) ∧ (c.white = true → c.letter = false)

/-- Python `has_letter(s)`: `any(unicodedata.category(ch).startswith("L") for ch in s)`
(both source files define this helper identically). -/
def has_letter (s : PStr) : Bool := s.any (·.letter)

/-- Python `str.strip()` with no argument: remove leading and trailing
whitespace. -/
def pyStrip (s : PStr) : PStr :=
  ((s.dropWhile (·.white)).reverse.dropWhile (·.white)).reverse

/-- Split a string at every whitespace character, keeping (possibly empty)
segments: the auxiliary step of Python `str.split()`. -/
def splitAtWhite (s : PStr) : List PStr :=
  s.foldr
    (fun c acc =>
      if c.white then [] :: acc
      else
        match acc with
        | [] => [[c]]
        | w :: ws => (c :: w) :: ws)
    [[]]

/-- Python `str.split()` with no argument: split on whitespace runs, dropping
empty fragments. -/
def pySplit (s : PStr) : List PStr :=
  (splitAtWhite s).filter (· ≠ [])

/-- Membership of a code point in the trailing-punctuation set `".:;"`. -/
def isTrailPunct (c : UChar) : Bool :=
  c.code = 46 || c.code = 58 || c.code = 59

/-- Python `str.rstrip(".:;")`: remove trailing characters drawn from the set. -/
def pyRstripPunct (s : PStr) : PStr :=
  (s.reverse.dropWhile isTrailPunct).reverse

/-- Python `str.endswith((".", ":", ";"))`: the last character, if any, is one
of the three code points. -/
def endsWithPunct (s : PStr) : Bool :=
  match s.reverse with
  | [] => false
  | c :: _ => isTrailPunct c

/-- Python `round` applied to the exact quotient `sum / n`: round half to
even.  With sizes in tenths this is exactly `round(mean, 1)` scaled by 10. -/
def roundQuot (sum : ℤ) (n : ℤ) : ℤ :=
  let f := Int.fdiv sum n
  let r := sum - f * n
  if 2 * r < n then f
  else if n < 2 * r then f + 1
  else if f % 2 = 0 then f else f + 1

/-!  ## A stable insertion sort

Python `list.sort` / `sorted` are stable sorts; a stable sort is uniquely
determined by its comparator, so a stable insertion sort is an exact model of
them. -/

/-- Insert `x` into `l` after every element `y` with `le y x`. -/
def insertLe (le : α → α → Bool) (x : α) : List α → List α
  | [] => [x]
  | y :: ys => if le y x then y :: insertLe le x ys else x :: y :: ys

/-- Stable insertion sort with boolean comparator `le`. -/
def insSortBy (le : α → α → Bool) (l : List α) : List α :=
  l.foldl (fun acc x => insertLe le x acc) []

/-!  ## First-occurrence de-duplication keyed by a projection

Both the section-merge loop of `extract_sections` and the distinct-document
selection loop of `main` in `round1b_processor_advanced.py` walk a list with a
`seen` set, keeping an element only when its key has not occurred before. -/

/-- Keep each element whose key is new, threading the set `seen` of keys
already encountered. -/
def keepFirsts (key : α → κ) [DecidableEq κ] : List α → List κ → List α
  | [], _ => []
  | x :: xs, seen =>
    if key x ∈ seen then keepFirsts key xs seen
    else x :: keepFirsts key xs (key x :: seen)


/-- Pair each element of a list with a 1-based (more generally, `n`-based)
index: Python `enumerate(l, start=n)`. -/
def numberFrom (n : Nat) : List α → List (Nat × α)
  | [] => []
  | x :: xs => (n, x) :: numberFrom (n + 1) xs

/-!  ## Pipeline 1a: `process_pdfs.py` (outline extraction)

`extract_outline` collects spans per page, groups the spans of one page into
line buckets by `y0` proximity (tolerance 2), collapses every bucket into a
line, picks the topmost page-1 line as the title, maps the top-3 distinct
rounded sizes to heading levels H1..H3, and assembles a de-duplicated outline
in document order. -/

/-- A raw span of pipeline 1a: text, font size (in tenths of a point, already
carrying the one-decimal rounding the code applies on collection) and the two
leading bounding box coordinates. -/
structure ASpan where
  txt : PStr
  size : ℤ
  x0 : ℤ
  y0 : ℤ
deriving DecidableEq, Repr

/-- Span collection for one page: strip the text and drop whitespace-only and
letter-free spans (the one-decimal size rounding is absorbed by the tenths
representation). -/
def collect1a (raw : List ASpan) : List ASpan :=
  raw.filterMap fun s =>
    let t := pyStrip s.txt
    if t.isEmpty || !has_letter t then none
    else some ⟨t, s.size, s.x0, s.y0⟩

/-- The reference `y0` of a bucket: its first element (`b[0]["y0"]`). -/
def bucketRefY (b : List ASpan) : ℤ :=
  match b with
  | [] => 0
  | s :: _ => s.y0

/-- Place a span into the first existing bucket whose reference `y0` is within
2 points, else open a new bucket at the end. -/
def addToBuckets (s : ASpan) : List (List ASpan) → List (List ASpan)
  | [] => [[s]]
  | b :: bs =>
    if |bucketRefY b - s.y0| < 2 then (b ++ [s]) :: bs
    else b :: addToBuckets s bs

/-- The per-page line buckets of pipeline 1a. -/
def buckets1a (spans : List ASpan) : List (List ASpan) :=
  spans.foldl (fun acc s => addToBuckets s acc) []

/-- A visual line of pipeline 1a: page, text, rounded average size, and the
average `y0` kept as the exact fraction `y0sum / y0den`. -/
structure ALine where
  pg : Nat
  txt : PStr
  size : ℤ
  y0sum : ℤ
  y0den : ℤ
deriving DecidableEq, Repr

/-- Collapse one bucket of page `pg` into a line: sort by `x0`, join texts
(character run when all spans are single characters and there are at least 3,
else space join), strip, drop the line if it has no letter, and attach the
rounded average size and the average `y0`. -/
def collapse1a (pg : Nat) (b : List ASpan) : Option ALine :=
  let bs := insSortBy (fun u v => decide (u.x0 ≤ v.x0)) b
  let texts : List PStr := bs.map (·.txt)
  let joined :=
    if texts.all (fun t => decide (t.length = 1)) && decide (3 ≤ texts.length) then
      texts.flatten
    else List.intercalate [spaceChar] texts
  let text := pyStrip joined
  if has_letter text then
    some ⟨pg, text, roundQuot (bs.map (·.size)).sum (bs.length : ℤ),
      (bs.map (·.y0)).sum, (bs.length : ℤ)⟩
  else none

/-- The page-numbered buckets of a whole 1a document (pages are numbered from
1, as in `enumerate(doc, start=1)`); used to express span provenance. -/
def pageBuckets (doc : List (List ASpan)) : List (Nat × List ASpan) :=
  ((numberFrom 1 doc).map fun pr =>
    (buckets1a (collect1a pr.2)).map (fun b => (pr.1, b))).flatten

/-- All lines of a 1a document in document order. -/
def linesOf1a (doc : List (List ASpan)) : List ALine :=
  ((numberFrom 1 doc).map fun pr =>
    (buckets1a (collect1a pr.2)).filterMap (collapse1a pr.1)).flatten

/-- The top-3 distinct sizes, descending: `sorted(set(sizes), reverse=True)[:3]`
(shared by both pipelines). -/
def topSizes (szs : List ℤ) : List ℤ :=
  (insSortBy (fun a b => decide (b ≤ a)) szs.dedup).take 3

/-- The heading level of a size under the `level_map` dict built from the
top-3 size list: position 0 maps to H1, 1 to H2, 2 to H3. -/
def levelOf (sizes : List ℤ) (sz : ℤ) : Option Nat :=
  (sizes.findIdx? (fun s => decide (s = sz))).map (· + 1)

/-- An outline entry: heading level (1..3 for H1..H3), text, page. -/
structure OEntry where
  level : Nat
  text : PStr
  page : Nat
deriving DecidableEq, Repr

/-- Outline assembly: scan the lines in document order, emitting an entry for
every line whose size has a heading level and whose exact text was not emitted
before. -/
def outlineGo (lm : ℤ → Option Nat) : List ALine → List PStr → List OEntry
  | [], _ => []
  | l :: rest, seen =>
    match lm l.size with
    | some lvl =>
      if l.txt ∈ seen then outlineGo lm rest seen
      else ⟨lvl, l.txt, l.pg⟩ :: outlineGo lm rest (l.txt :: seen)
    | none => outlineGo lm rest seen

/-- The comparison of two exact average `y0` fractions, by cross
multiplication (denominators, being bucket lengths, are positive). -/
def y0Le (u v : ALine) : Bool :=
  decide (u.y0sum * v.y0den ≤ v.y0sum * u.y0den)

/-- Title selection: the topmost (smallest average `y0`, stable sort) line of
page 1, falling back to the file stem when page 1 has no lines. -/
def titleOf (lines : List ALine) (stem : PStr) : PStr :=
  match insSortBy y0Le (lines.filter (fun l => decide (l.pg = 1))) with
  | [] => stem
  | l :: _ => l.txt

/-- The result of `extract_outline`: a title and an outline. -/
structure OutlineResult where
  title : PStr
  outline : List OEntry
deriving DecidableEq, Repr

/-- Steps 2-4 of `extract_outline`, operating on the collected lines. -/
def outlineFromLines (lines : List ALine) (stem : PStr) : OutlineResult :=
  ⟨titleOf lines stem, outlineGo (levelOf (topSizes (lines.map (·.size)))) lines []⟩

/-- The whole of `extract_outline`: from the raw per-page spans (the data the
PDF text-layer collaborator yields) and the file stem to the outline result. -/
def extract_outline (doc : List (List ASpan)) (stem : PStr) : OutlineResult :=
  outlineFromLines (linesOf1a doc) stem

/-!  ## Pipeline 1b: `extract_sections` in `round1b_processor_advanced.py`

Spans of ALL pages are collected into one list of `(pg, txt, size, y0, x0)`
tuples, sorted by `y0` alone, and bucketed sequentially with tolerance 3
against the last span of the open bucket; the buckets are then collapsed to
`(page, text, size)` lines. -/

/-- A raw span tuple of pipeline 1b (size in tenths, as in 1a). -/
structure BSpan where
  pg : Nat
  txt : PStr
  size : ℤ
  y0 : ℤ
  x0 : ℤ
deriving DecidableEq, Repr

/-- Span collection of pipeline 1b (identical filter to 1a, page retained). -/
def collect1b (raw : List BSpan) : List BSpan :=
  raw.filterMap fun s =>
    let t := pyStrip s.txt
    if t.isEmpty || !has_letter t then none
    else some ⟨s.pg, t, s.size, s.y0, s.x0⟩

/-- `spans.sort(key=lambda x: x[3])`: stable sort of the whole span list by
`y0` only, ignoring the page. -/
def sortSpansByY0 (spans : List BSpan) : List BSpan :=
  insSortBy (fun u v => decide (u.y0 ≤ v.y0)) spans

/-- The `y0` of the last span of the open bucket (`bucket[-1][3]`). -/
def lastY (b : List BSpan) : ℤ :=
  match b.getLast? with
  | some t => t.y0
  | none => 0

/-- Sequential bucketing of the sorted span list: a span joins the open bucket
when its `y0` is within 3 of the bucket's last span, else the bucket is closed
and a new one opened. -/
def buckets1bGo : List BSpan → List BSpan → List (List BSpan)
  | [], bucket => [bucket]
  | sp :: rest, bucket =>
    if |sp.y0 - lastY bucket| < 3 then buckets1bGo rest (bucket ++ [sp])
    else bucket :: buckets1bGo rest [sp]

/-- The buckets of pipeline 1b (empty input gives no buckets). -/
def buckets1b (spans : List BSpan) : List (List BSpan) :=
  match spans with
  | [] => []
  | s :: rest => buckets1bGo rest [s]

/-- A collapsed line of pipeline 1b: `(page, text, size)`; the page is that of
the first span after the `x0` sort. -/
structure CLine where
  pg : Nat
  txt : PStr
  size : ℤ
deriving DecidableEq, Repr

/-- Collapse a 1b bucket: sort by `x0`, take the first span's page, join the
texts (character run when more than half the spans are single characters, else
space join), strip, attach the rounded average size. -/
def collapse1b (b : List BSpan) : CLine :=
  let bs := insSortBy (fun u v => decide (u.x0 ≤ v.x0)) b
  let pg :=
    match bs with
    | [] => 0
    | s :: _ => s.pg
  let texts : List PStr := bs.map (·.txt)
  let size := roundQuot (bs.map (·.size)).sum (bs.length : ℤ)
  let joined :=
    if decide (texts.length / 2 < texts.countP (fun t => decide (t.length = 1))) then
      texts.flatten
    else List.intercalate [spaceChar] texts
  ⟨pg, pyStrip joined, size⟩

/-- The collapsed lines of `extract_sections`, from the raw spans. -/
def collapsedOf (raw : List BSpan) : List CLine :=
  (buckets1b (sortSpansByY0 (collect1b raw))).map collapse1b

/-- Python `w[0].isupper()` guarded by `w` being nonempty. -/
def firstUpper (w : PStr) : Bool :=
  match w with
  | [] => false
  | ch :: _ => ch.upper

/-- The strict heading test of `extract_sections`:
size among the top sizes, 2-4 words, every word truthy and starting with an
uppercase character, at most 40 characters, no trailing `.`, `:` or `;`. -/
def isHead (ts : List ℤ) (l : CLine) : Bool :=
  decide (l.size ∈ ts) &&
    decide (2 ≤ (pySplit l.txt).length) && decide ((pySplit l.txt).length ≤ 4) &&
    (pySplit l.txt).all (fun w => !w.isEmpty && firstUpper w) &&
    decide (l.txt.length ≤ 40) &&
    !endsWithPunct l.txt

/-- The fallback heading test: size among the top sizes and at most 8 words. -/
def fallbackHead (ts : List ℤ) (l : CLine) : Bool :=
  decide (l.size ∈ ts) && decide ((pySplit l.txt).length ≤ 8)

/-- A candidate section as built by `extract_sections`. -/
structure Sec where
  section_title : PStr
  page_number : Nat
  content : PStr
deriving DecidableEq, Repr

/-- One segmentation pass: a heading line closes the open section (if any) and
opens a new one; a non-heading line appends its text plus a space to the open
section's content; text before the first heading is discarded; the trailing
open section is closed at end of input. -/
def passGo (hd : CLine → Bool) : List CLine → Option Sec → List Sec
  | [], curr => curr.toList
  | l :: rest, curr =>
    if hd l then
      curr.toList ++ passGo hd rest (some ⟨l.txt, l.pg, []⟩)
    else
      match curr with
      | some c =>
        passGo hd rest (some ⟨c.section_title, c.page_number,
          c.content ++ l.txt ++ [spaceChar]⟩)
      | none => passGo hd rest none

/-- The strict pass over the collapsed lines. -/
def strictSections (c : List CLine) : List Sec :=
  passGo (isHead (topSizes (c.map (·.size)))) c none

/-- The fallback pass over the collapsed lines. -/
def fallbackSections (c : List CLine) : List Sec :=
  passGo (fallbackHead (topSizes (c.map (·.size)))) c none

/-- The merge-and-dedupe loop of `extract_sections`: walk `strict + fallback`,
keep a section when its exact title is new, stop as soon as 5 are kept. -/
def mergeGo : List Sec → List Sec → List PStr → List Sec
  | [], merged, _ => merged
  | s :: rest, merged, seen =>
    let step :=
      if s.section_title ∈ seen then (merged, seen)
      else (merged ++ [s], s.section_title :: seen)
    if 5 ≤ step.1.length then step.1 else mergeGo rest step.1 step.2

/-- The whole of `extract_sections`: returns the strict sections (first 5)
when the strict pass found at least 5, else the merged and de-duplicated
strict + fallback sections truncated at 5. -/
def extract_sections (raw : List BSpan) : List Sec :=
  if (collect1b raw).isEmpty then []
  else
    let collapsed := collapsedOf raw
    let strict := strictSections collapsed
    if strict.length < 5 then
      mergeGo (strict ++ fallbackSections collapsed) [] []
    else strict.take 5

/-!  ## The `main` stage of `round1b_processor_advanced.py`

Sections gathered from all documents are scored by similarity of their title
to the persona+task query, sorted by score descending, filtered to one section
per source document (stopping at 5), their titles cleaned, ranks assigned
1-based, and each selected section refined to its top-3 sentences.  The
sentence-embedding model is an external collaborator; it enters the embedding
as similarity functions (`simOf` for titles, `simSent` for sentences), and the
`page.get_text()` fallback enters as `ptext`. -/

/-- Membership of a code point in the clause-delimiter class `[:\-–]` of
`clean_heading`: colon, hyphen-minus, en-dash. -/
def isClauseDelim (c : UChar) : Bool :=
  c.code = 58 || c.code = 45 || c.code = 8211

/-- Python `str.capitalize()`: first character title-cased, the rest
lower-cased.  The case maps are supplied as functions `up` and `low` because
the full Unicode tables are external to the embedding. -/
def pyCapitalize (up low : UChar → UChar) : PStr → PStr
  | [] => []
  | c :: rest => up c :: rest.map low

/-- `clean_heading`: strip trailing `.:;`, keep the text before the first
colon/dash/en-dash, strip, then capitalize each whitespace word and join with
single spaces. -/
def clean_heading (up low : UChar → UChar) (txt : PStr) : PStr :=
  let t := pyRstripPunct txt
  let clause := pyStrip (t.takeWhile (fun c => !isClauseDelim c))
  List.intercalate [spaceChar] ((pySplit clause).map (pyCapitalize up low))

/-- The claim's reading of the normalizer: first letter of each token
uppercased, the remainder of the token UNCHANGED in case. -/
def cleanHeadingClaimed (up : UChar → UChar) (txt : PStr) : PStr :=
  let t := pyRstripPunct txt
  let clause := pyStrip (t.takeWhile (fun c => !isClauseDelim c))
  List.intercalate [spaceChar]
    ((pySplit clause).map (fun w => (w.take 1).map up ++ w.drop 1))

/-- Trailing-punctuation strip written independently of the code (structural
recursion from the right instead of reverse/dropWhile/reverse). -/
def rstripPunctSpec (s : PStr) : PStr :=
  s.foldr (fun c acc => if acc.isEmpty && isTrailPunct c then [] else c :: acc) []

/-- First clause written independently of the code: the prefix up to the first
clause delimiter found by index. -/
def firstClauseSpec (s : PStr) : PStr :=
  match s.findIdx? isClauseDelim with
  | none => s
  | some i => s.take i

/-- The amended normalizer specification: as the claim, except that the
remainder of each token is lower-cased (per-word `str.capitalize`). -/
def cleanHeadingAmendedSpec (up low : UChar → UChar) (txt : PStr) : PStr :=
  List.intercalate [spaceChar]
    ((pySplit (pyStrip (firstClauseSpec (rstripPunctSpec txt)))).map
      (fun w => (w.take 1).map up ++ (w.drop 1).map low))

/-- A candidate section tagged with its source document and score, as carried
through `main`. -/
structure FSec where
  filename : String
  section_title : PStr
  page_number : Nat
  content : PStr
  score : ℚ
deriving DecidableEq, Repr

/-- Title clean-up applied to a selected section. -/
def cleanSec (up low : UChar → UChar) (s : FSec) : FSec :=
  ⟨s.filename, clean_heading up low s.section_title, s.page_number, s.content, s.score⟩

/-- The comparator of `sorted(..., key=lambda x: x["score"], reverse=True)`. -/
def scoreGe (u v : FSec) : Bool :=
  decide (v.score ≤ u.score)

/-- The distinct-document selection loop of `main`: walk the scored list,
accept a section (with cleaned title) only when its document is new, stop as
soon as 5 are accepted. -/
def selGo (up low : UChar → UChar) : List FSec → List FSec → List String → List FSec
  | [], final, _ => final
  | s :: rest, final, seen =>
    let step :=
      if s.filename ∈ seen then (final, seen)
      else (final ++ [cleanSec up low s], s.filename :: seen)
    if step.1.length = 5 then step.1 else selGo up low rest step.1 step.2

/-- Sort by score descending (stable), then select at most one section per
document, capped at 5. -/
def rankSelection (up low : UChar → UChar) (secs : List FSec) : List FSec :=
  selGo up low (insSortBy scoreGe secs) [] []

/-- Does the (reversed) text built so far end in `.`, `!` or `?`: the
lookbehind of the sentence-split pattern. -/
def prevIsSentEnd (cur : PStr) : Bool :=
  match cur with
  | [] => false
  | p :: _ => p.code = 46 || p.code = 33 || p.code = 63

/-- Worker of the sentence split: `cur` holds the current fragment reversed;
a space preceded by `.`, `!` or `?` closes the fragment, and the boolean flag
records that the following space run is still being consumed (the greedy `+`
of the pattern). -/
def sentSplitGo : PStr → PStr → Bool → List PStr
  | [], cur, _ => [cur.reverse]
  | c :: rest, cur, skip =>
    if skip && decide (c.code = 32) then
      sentSplitGo rest cur true
    else if decide (c.code = 32) && prevIsSentEnd cur then
      cur.reverse :: sentSplitGo rest [] true
    else
      sentSplitGo rest (c :: cur) false

/-- Python `re.split(r"(?<=[.!?]) +", cont)`. -/
def sentSplit (cont : PStr) : List PStr :=
  sentSplitGo cont [] false

/-- The indices of the `k` largest similarities: `topk` modelled as a stable
descending sort of the index range (ties resolved toward the lower index)
truncated at `k`. -/
def topkIdxs (sims : List ℚ) (k : Nat) : List Nat :=
  (insSortBy (fun i j => decide (sims.getD j 0 ≤ sims.getD i 0))
    (List.range sims.length)).take k

/-- Ascending sort of a list of naturals: `idxs.sort()`. -/
def sortNatAsc (l : List Nat) : List Nat :=
  insSortBy (fun a b => decide (a ≤ b)) l

/-- Join the top-`min 3 n` sentences by similarity, in ascending positional
order, with single spaces. -/
def refineFromSents (sims : List ℚ) (sents : List PStr) : PStr :=
  List.intercalate [spaceChar]
    ((sortNatAsc (topkIdxs sims (min 3 sents.length))).map (fun i => sents.getD i []))

/-- The sentence list of one section content:
`[s.strip() for s in re.split(...) if s.strip()]`. -/
def sentsOf (cont : PStr) : List PStr :=
  ((sentSplit cont).map pyStrip).filter (fun s => !s.isEmpty)

/-- Sentence-level refinement of one section content: split into sentences,
strip them, drop empties; keep the raw content when no sentence remains, else
keep the top-3 sentences by similarity in original order. -/
def refineText (simSent : PStr → ℚ) (cont : PStr) : PStr :=
  if (sentsOf cont).isEmpty then cont
  else refineFromSents ((sentsOf cont).map simSent) (sentsOf cont)

/-- Python `page.get_text().replace("\n", " ")`. -/
def nlToSpace (s : PStr) : PStr :=
  s.map (fun c => if c.code = 10 then spaceChar else c)

/-- The output of a ranking run: the ranked extracted sections (1-based
importance rank paired with the section) and the per-section refined texts
`(document, refined_text, page_number)`. -/
structure RankedOut where
  extracted : List (Nat × FSec)
  sub : List (String × PStr × Nat)
deriving DecidableEq, Repr

/-- Steps 2-5 of `main`: given the gathered sections of all documents, either
stop with the no-headings diagnostic and produce no output, or score, select,
rank and refine, producing the output object that is then written to disk. -/
def runRank (up low : UChar → UChar) (simOf simSent : PStr → ℚ)
    (ptext : String → Nat → PStr) (allSecs : List FSec) : Except String RankedOut :=
  let titles := allSecs.map (·.section_title)
  if titles.isEmpty then Except.error "No headings found—exiting."
  else
    let scored := allSecs.map fun s =>
      ⟨s.filename, s.section_title, s.page_number, s.content, simOf s.section_title⟩
    let final := rankSelection up low scored
    let sub := final.map fun s =>
      let cont := pyStrip s.content
      let cont2 :=
        if cont.isEmpty then pyStrip (nlToSpace (ptext s.filename s.page_number))
        else cont
      (s.filename, refineText simSent cont2, s.page_number)
    Except.ok ⟨numberFrom 1 final, sub⟩

/-!  ## Concrete characters and case maps for witnesses -/

/-- An uppercase letter with code `n` (letter, cased, Uppercase). -/
def ucU (n : Nat) : UChar := ⟨n, true, false, true, true⟩

/-- A lowercase letter with code `n` (letter, cased, not Uppercase). -/
def ucL (n : Nat) : UChar := ⟨n, true, false, true, false⟩

/-- An uncased letter with code `n`, e.g. an ideograph (letter, not cased). -/
def ucI (n : Nat) : UChar := ⟨n, true, false, false, false⟩

/-- A non-letter, non-white symbol with code `n` (e.g. punctuation). -/
def ucP (n : Nat) : UChar := ⟨n, false, false, false, false⟩

/-- The ASCII upper-case map: lower-case letters a-z move up by 32, everything
else is fixed (a faithful restriction of the Unicode title-case map). -/
def asciiUp (c : UChar) : UChar :=
  if 97 ≤ c.code ∧ c.code ≤ 122 then ucU (c.code - 32) else c

/-- The ASCII lower-case map: upper-case letters A-Z move down by 32,
everything else is fixed. -/
def asciiLow (c : UChar) : UChar :=
  if 65 ≤ c.code ∧ c.code ≤ 90 then ucL (c.code + 32) else c

/-- Five candidate sections from five distinct documents, used by the ranking
witness. -/
def exSecs : List FSec :=
  [⟨"a", [ucU 65], 1, [], 5⟩, ⟨"b", [ucU 66], 1, [], 4⟩,
   ⟨"c", [ucU 67], 2, [], 3⟩, ⟨"d", [ucU 68], 2, [], 2⟩,
   ⟨"e", [ucU 69], 3, [], 1⟩]

/-- A five-sentence content ("a. aa. aaa. aaaa. aaaaa."-shaped without the
final period being load bearing), used by the refinement witness. -/
def exCont : PStr :=
  [ucL 97, ucP 46, spaceChar,
   ucL 97, ucL 97, ucP 46, spaceChar,
   ucL 97, ucL 97, ucL 97, ucP 46, spaceChar,
   ucL 97, ucL 97, ucL 97, ucL 97, ucP 46, spaceChar,
   ucL 97, ucL 97, ucL 97, ucL 97, ucL 97, ucP 46]

/-- A concrete sentence-similarity oracle: ranks the 4th, 1st and 3rd
sentences of `exCont` highest, in that order. -/
def exSim (s : PStr) : ℚ :=
  if s.length = 5 then 9 else if s.length = 2 then 8 else if s.length = 4 then 7 else 0
theorem insertLe_perm (le : α → α → Bool) (x : α) (l : List α) :
    (insertLe le x l).Perm (x :: l) := by
  induction l with
  | nil => rfl
  | cons y ys ih =>
    by_cases h : le y x = true
    · simpa [insertLe, h] using ((ih.cons y).trans (List.Perm.swap x y ys))
    · simp [insertLe, h]

theorem insSortBy_foldl_perm (le : α → α → Bool) (l acc : List α) :
    (l.foldl (fun a x => insertLe le x a) acc).Perm (acc ++ l) := by
  induction l generalizing acc with
  | nil => simp
  | cons x xs ih =>
    have h1 := ih (insertLe le x acc)
    have h2 : (insertLe le x acc ++ xs).Perm ((x :: acc) ++ xs) :=
      (insertLe_perm le x acc).append_right xs
    have h3 : ((x :: acc) ++ xs).Perm (acc ++ x :: xs) := List.perm_middle.symm
    exact (h1.trans h2).trans h3

theorem insSortBy_perm (le : α → α → Bool) (l : List α) :
    (insSortBy le l).Perm l := by
  simpa [insSortBy] using insSortBy_foldl_perm le l []

theorem mem_insSortBy (le : α → α → Bool) (l : List α) (x : α) :
    x ∈ insSortBy le l ↔ x ∈ l :=
  (insSortBy_perm le l).mem_iff

theorem insertLe_pairwise (le : α → α → Bool)
    (htot : ∀ a b, le a b = true ∨ le b a = true)
    (htrans : ∀ a b c, le a b = true → le b c = true → le a c = true)
    (x : α) (l : List α) (h : l.Pairwise (fun a b => le a b = true)) :
    (insertLe le x l).Pairwise (fun a b => le a b = true) := by
  induction l with
  | nil => simp [insertLe]
  | cons y ys ih =>
    rcases List.pairwise_cons.mp h with ⟨hy, hys⟩
    by_cases hle : le y x = true
    · have hrec := ih hys
      simp only [insertLe, hle, if_true]
      refine List.pairwise_cons.mpr ⟨?_, hrec⟩
      intro z hz
      have hz2 : z ∈ x :: ys := (insertLe_perm le x ys).mem_iff.mp hz
      rcases List.mem_cons.mp hz2 with rfl | hz3
      · exact hle
      · exact hy z hz3
    · have hxy : le x y = true := (htot x y).resolve_right (by simpa using hle)
      simp only [insertLe, hle, if_false]
      refine List.pairwise_cons.mpr ⟨?_, h⟩
      intro z hz
      rcases List.mem_cons.mp hz with rfl | hz2
      · exact hxy
      · exact htrans x y z hxy (hy z hz2)

theorem insSortBy_pairwise (le : α → α → Bool)
    (htot : ∀ a b, le a b = true ∨ le b a = true)
    (htrans : ∀ a b c, le a b = true → le b c = true → le a c = true)
    (l : List α) :
    (insSortBy le l).Pairwise (fun a b => le a b = true) := by
  suffices h : ∀ acc, acc.Pairwise (fun a b => le a b = true) →
      (l.foldl (fun a x => insertLe le x a) acc).Pairwise (fun a b => le a b = true) by
    exact h [] (by simp)
  induction l with
  | nil => intro acc hacc; simpa using hacc
  | cons x xs ih =>
    intro acc hacc
    exact ih (insertLe le x acc) (insertLe_pairwise le htot htrans x acc hacc)

theorem keepFirsts_sublist (key : α → κ) [DecidableEq κ] (l : List α) (seen : List κ) :
    (keepFirsts key l seen).Sublist l := by
  induction l generalizing seen with
  | nil => simp [keepFirsts]
  | cons x xs ih =>
    by_cases h : key x ∈ seen
    · simpa [keepFirsts, h] using (ih seen).trans (List.sublist_cons_self x xs)
    · simpa [keepFirsts, h] using (ih (key x :: seen)).cons₂ x

theorem keepFirsts_keys_nodup (key : α → κ) [DecidableEq κ] (l : List α) (seen : List κ) :
    ((keepFirsts key l seen).map key).Nodup ∧
      ∀ k ∈ (keepFirsts key l seen).map key, k ∉ seen := by
  induction l generalizing seen with
  | nil => simp [keepFirsts]
  | cons x xs ih =>
    by_cases h : key x ∈ seen
    · simpa [keepFirsts, h] using ih seen
    · have ihx := ih (key x :: seen)
      refine ⟨?_, ?_⟩
      · simp only [keepFirsts, h, if_false, List.map_cons, List.nodup_cons]
        refine ⟨fun hmem => ?_, ihx.1⟩
        exact (ihx.2 (key x) hmem) (by simp)
      · intro k hk
        simp only [keepFirsts, h, if_false, List.map_cons, List.mem_cons] at hk
        rcases hk with rfl | hk2
        · exact h
        · have := ihx.2 k hk2
          intro hs
          exact this (by simp [hs])

theorem keepFirsts_keys_toFinset (key : α → κ) [DecidableEq κ] (l : List α) (seen : List κ) :
    ((keepFirsts key l seen).map key).toFinset =
      (l.map key).toFinset \ seen.toFinset := by
  induction l generalizing seen with
  | nil => simp [keepFirsts]
  | cons x xs ih =>
    by_cases h : key x ∈ seen
    · rw [show keepFirsts key (x :: xs) seen = keepFirsts key xs seen by
        simp [keepFirsts, h]]
      rw [ih seen]
      ext a
      by_cases ha : a = key x
      · subst ha; simp [h]
      · simp [ha]
    · rw [show keepFirsts key (x :: xs) seen = x :: keepFirsts key xs (key x :: seen) by
        simp [keepFirsts, h]]
      simp only [List.map_cons, List.toFinset_cons, ih (key x :: seen)]
      ext a
      by_cases ha : a = key x
      · subst ha; simp [h]
      · simp [ha]

theorem keepFirsts_length (key : α → κ) [DecidableEq κ] (l : List α) :
    (keepFirsts key l []).length = (l.map key).toFinset.card := by
  have hnodup := (keepFirsts_keys_nodup key l []).1
  have hcard := congrArg Finset.card (keepFirsts_keys_toFinset key l [])
  rw [List.toFinset_card_of_nodup hnodup] at hcard
  simpa using hcard

/-!  ## Small characterisation lemmas for the heading predicate -/

theorem endsWithPunct_eq_false_iff (s : PStr) :
    endsWithPunct s = false ↔ ∀ ch, s.getLast? = some ch → isTrailPunct ch = false := by
  rcases h : s.reverse with _ | ⟨c, cs⟩
  · have hl : s.getLast? = none := by rw [← List.head?_reverse, h]; rfl
    simp [endsWithPunct, h, hl]
  · have hl : s.getLast? = some c := by rw [← List.head?_reverse, h]; rfl
    simp [endsWithPunct, h, hl]

theorem wordTest_iff (w : PStr) :
    (w.isEmpty = false ∧ firstUpper w = true) ↔
      ∃ ch rest, w = ch :: rest ∧ ch.upper = true := by
  cases w with
  | nil => simp [firstUpper]
  | cons c r =>
    constructor
    · intro h
      exact ⟨c, r, rfl, by simpa [firstUpper] using h.2⟩
    · rintro ⟨ch, rest, heq, hup⟩
      cases heq
      exact ⟨by simp, by simpa [firstUpper] using hup⟩

theorem isTrailPunct_eq_false_iff (ch : UChar) :
    isTrailPunct ch = false ↔ ¬(ch.code = 46 ∨ ch.code = 58 ∨ ch.code = 59) := by
  simp [isTrailPunct]
  tauto

/-- C2: in the strict pass of the section pipeline, a collapsed line qualifies
as a heading if and only if its (rounded average) size is among the document's
top-3 distinct sizes, its whitespace word count is between 2 and 4, every word
starts with an uppercase character, its length is at most 40, and its last
character is none of `.`, `:`, `;`. -/
theorem c2_strict_heading_characterisation (c : List CLine) (l : CLine) :
    isHead (topSizes (c.map (·.size))) l = true ↔
      (l.size ∈ topSizes (c.map (·.size)) ∧
        2 ≤ (pySplit l.txt).length ∧ (pySplit l.txt).length ≤ 4 ∧
        (∀ w ∈ pySplit l.txt, ∃ ch rest, w = ch :: rest ∧ ch.upper = true) ∧
        l.txt.length ≤ 40 ∧
        ∀ ch, l.txt.getLast? = some ch →
          ¬(ch.code = 46 ∨ ch.code = 58 ∨ ch.code = 59)) := by
  simp only [isHead, Bool.and_eq_true, decide_eq_true_eq, List.all_eq_true,
    Bool.not_eq_true', endsWithPunct_eq_false_iff, wordTest_iff,
    isTrailPunct_eq_false_iff]
  tauto

/-- C9 (amended): the strict-pass uppercase test is always FALSE on a word
whose first character is non-cased (real Unicode: an uncased character never
has the `Uppercase` property), so such a word always makes the line fail the
strict heading test — the opposite of the claimed "effectively always true". -/
theorem c9_uncased_first_char_fails (ts : List ℤ) (l : CLine) (ch : UChar)
    (rest : PStr) (hw : ch :: rest ∈ pySplit l.txt)
    (hwf : ch.upper = true → ch.cased = true) (hcased : ch.cased = false) :
    isHead ts l = false := by
  have hup : ch.upper = false := by
    cases h : ch.upper
    · rfl
    · rw [hwf h] at hcased
      cases hcased
  cases hAll : (pySplit l.txt).all (fun w => !w.isEmpty && firstUpper w) with
  | false => simp [isHead, hAll]
  | true =>
    exfalso
    have hword := List.all_eq_true.mp hAll _ hw
    simp [firstUpper, hup] at hword

/-- C9 witness: a two-word line of uncased (ideographic) characters fails the
strict heading test, with the hypotheses discharged at the concrete input. -/
theorem c9_uncased_word_witness :
    (ucI 20013).cased = false ∧
    isHead [120] ⟨1, [ucI 20013, ucI 25991, spaceChar, ucI 28450, ucI 23383], 120⟩ = false :=
  ⟨by decide,
    c9_uncased_first_char_fails [120]
      ⟨1, [ucI 20013, ucI 25991, spaceChar, ucI 28450, ucI 23383], 120⟩
      (ucI 20013) [ucI 25991] (by decide) (by decide) (by decide)⟩

/-- C9 counterexample: a concrete line ("中文 漢字": two words of uncased
ideographic letters) satisfies every other strict criterion — size among the
top sizes, 2 words, length 5 of at most 40, no trailing punctuation — yet the
per-word uppercase test is false on its words and the line is NOT a strict
heading, refuting "such a word never causes a line to fail the uppercase
criterion". -/
theorem c9_counterexample :
    (ucI 20013).cased = false ∧
    (!([ucI 20013, ucI 25991] : PStr).isEmpty &&
        firstUpper [ucI 20013, ucI 25991]) = false ∧
    isHead [120] ⟨1, [ucI 20013, ucI 25991, spaceChar, ucI 28450, ucI 23383], 120⟩ = false ∧
    (120 : ℤ) ∈ [(120 : ℤ)] ∧
    (pySplit [ucI 20013, ucI 25991, spaceChar, ucI 28450, ucI 23383]).length = 2 ∧
    ([ucI 20013, ucI 25991, spaceChar, ucI 28450, ucI 23383] : PStr).length ≤ 40 ∧
    endsWithPunct [ucI 20013, ucI 25991, spaceChar, ucI 28450, ucI 23383] = false := by
  decide

/-- C8: the ranking run produces the "no headings found" diagnostic and no
output exactly when the gathered candidate section list is empty, and this is
the only condition under which it produces no output object. -/
theorem c8_no_headings_is_only_no_output (up low : UChar → UChar)
    (simOf simSent : PStr → ℚ) (ptext : String → Nat → PStr) (allSecs : List FSec) :
    (runRank up low simOf simSent ptext allSecs =
        Except.error "No headings found—exiting." ↔ allSecs = []) ∧
    ((∃ out, runRank up low simOf simSent ptext allSecs = Except.ok out) ↔
      allSecs ≠ []) := by
  cases allSecs with
  | nil => simp [runRank]
  | cons s rest => simp [runRank]

/-!  ## The heading normalizer (C7) -/

theorem pyRstripPunct_eq_spec (s : PStr) :
    pyRstripPunct s = rstripPunctSpec s := by
  induction s with
  | nil => rfl
  | cons c cs ih =>
    have hstep : pyRstripPunct (c :: cs) =
        (if (cs.reverse.dropWhile isTrailPunct).isEmpty = true
          then [c].dropWhile isTrailPunct
          else cs.reverse.dropWhile isTrailPunct ++ [c]).reverse := by
      simp only [pyRstripPunct, List.reverse_cons, List.dropWhile_append]
    have hspec : rstripPunctSpec (c :: cs) =
        if ((rstripPunctSpec cs).isEmpty && isTrailPunct c) = true
          then [] else c :: rstripPunctSpec cs := rfl
    by_cases hemp : (cs.reverse.dropWhile isTrailPunct).isEmpty = true
    · have hcs : pyRstripPunct cs = [] := by
        unfold pyRstripPunct
        rw [List.isEmpty_eq_true.mp hemp]
        rfl
      have hspecnil : (rstripPunctSpec cs).isEmpty = true := by
        rw [← ih, hcs]
        rfl
      rw [hstep, hspec, if_pos hemp, hspecnil]
      by_cases hc : isTrailPunct c = true
      · simp [List.dropWhile_cons, hc]
      · have hcf : isTrailPunct c = false := by simpa using hc
        simp [List.dropWhile_cons, hcf, ← ih, hcs]
    · have hspecne : (rstripPunctSpec cs).isEmpty = false := by
        rw [← ih]
        unfold pyRstripPunct
        cases hd : cs.reverse.dropWhile isTrailPunct with
        | nil => exact absurd (by rw [hd]; rfl) hemp
        | cons x xs => simp
      rw [hstep, hspec, if_neg hemp, hspecne]
      simp [← ih, pyRstripPunct]

theorem takeWhile_eq_firstClauseSpec (s : PStr) :
    s.takeWhile (fun c => !isClauseDelim c) = firstClauseSpec s := by
  induction s with
  | nil => rfl
  | cons c cs ih =>
    by_cases hc : isClauseDelim c = true
    · have hcons : (c :: cs).findIdx? isClauseDelim = some 0 := by
        rw [List.findIdx?_cons, if_pos hc]
      simp [List.takeWhile_cons, firstClauseSpec, hcons, hc]
    · have hcf : isClauseDelim c = false := by simpa using hc
      have hc2 : (fun x => !isClauseDelim x) c = true := by simp [hcf]
      cases hfi : cs.findIdx? isClauseDelim with
      | none =>
        have hcons : (c :: cs).findIdx? isClauseDelim = none := by
          rw [List.findIdx?_cons, if_neg hc, List.findIdx?_succ, hfi]
          rfl
        have hcs : firstClauseSpec cs = cs := by simp [firstClauseSpec, hfi]
        rw [List.takeWhile_cons, if_pos hc2, ih, hcs]
        simp [firstClauseSpec, hcons]
      | some i =>
        have hcons : (c :: cs).findIdx? isClauseDelim = some (i + 1) := by
          rw [List.findIdx?_cons, if_neg hc, List.findIdx?_succ, hfi]
          rfl
        have hcs : firstClauseSpec cs = cs.take i := by simp [firstClauseSpec, hfi]
        rw [List.takeWhile_cons, if_pos hc2, ih, hcs]
        simp [firstClauseSpec, hcons]

theorem pyCapitalize_eq (up low : UChar → UChar) (w : PStr) :
    pyCapitalize up low w = (w.take 1).map up ++ (w.drop 1).map low := by
  cases w <;> simp [pyCapitalize]

/-- C7 (amended): `clean_heading` strips trailing `.:;`, keeps the text before
the first `:`/`-`/en-dash, and per-word capitalizes: the first letter of each
token is title-cased and the REMAINDER OF THE TOKEN IS LOWER-CASED (Python
`str.capitalize`), not left unchanged as the claim stated. -/
theorem c7_clean_heading_amended (up low : UChar → UChar) (txt : PStr) :
    clean_heading up low txt = cleanHeadingAmendedSpec up low txt := by
  simp only [clean_heading, cleanHeadingAmendedSpec, pyRstripPunct_eq_spec,
    takeWhile_eq_firstClauseSpec]
  refine congrArg _ ?_
  refine List.map_congr_left ?_
  intro w hw
  exact pyCapitalize_eq up low w

/-- C7 counterexample: on the token "NASA" the code produces "Nasa" — the
remainder of the token is lower-cased — while the claimed normalizer (first
letter uppercased, remainder unchanged in case) keeps "NASA". -/
theorem c7_counterexample :
    clean_heading asciiUp asciiLow [ucU 78, ucU 65, ucU 83, ucU 65] =
        [ucU 78, ucL 97, ucL 115, ucL 97] ∧
    cleanHeadingClaimed asciiUp [ucU 78, ucU 65, ucU 83, ucU 65] =
        [ucU 78, ucU 65, ucU 83, ucU 65] ∧
    clean_heading asciiUp asciiLow [ucU 78, ucU 65, ucU 83, ucU 65] ≠
      cleanHeadingClaimed asciiUp [ucU 78, ucU 65, ucU 83, ucU 65] := by
  decide

/-!  ## Outline de-duplication (C6) and title membership (C10) -/

theorem outlineGo_texts_nodup (lm : ℤ → Option Nat) :
    ∀ (pend : List ALine) (seen : List PStr),
      ((outlineGo lm pend seen).map (·.text)).Nodup ∧
        ∀ e ∈ outlineGo lm pend seen, e.text ∉ seen := by
  intro pend
  induction pend with
  | nil => intro seen; simp [outlineGo]
  | cons l rest ih =>
    intro seen
    cases hlm : lm l.size with
    | none => simpa [outlineGo, hlm] using ih seen
    | some lvl =>
      by_cases hmem : l.txt ∈ seen
      · simpa [outlineGo, hlm, hmem] using ih seen
      · have ihx := ih (l.txt :: seen)
        constructor
        · simp only [outlineGo, hlm, hmem, if_false, List.map_cons, List.nodup_cons]
          refine ⟨fun hc => ?_, ihx.1⟩
          rcases List.mem_map.mp hc with ⟨e, he, hetxt⟩
          exact (ihx.2 e he) (by simp [hetxt])
        · intro e he
          simp only [outlineGo, hlm, hmem, if_false, List.mem_cons] at he
          rcases he with rfl | he2
          · exact hmem
          · have hnot := ihx.2 e he2
            intro hseen
            exact hnot (by simp [hseen])

/-- C6: no two entries of an extracted outline share the same text — a heading
line is emitted only when its exact text has not been emitted before, so the
first occurrence wins and later duplicates are dropped, even across pages. -/
theorem c6_outline_entry_texts_distinct (doc : List (List ASpan)) (stem : PStr) :
    (extract_outline doc stem).outline.Pairwise (fun a b => a.text ≠ b.text) := by
  have h := (outlineGo_texts_nodup
    (levelOf (topSizes ((linesOf1a doc).map (·.size)))) (linesOf1a doc) []).1
  exact List.pairwise_map.mp h

theorem levelOf_isSome (sizes : List ℤ) (sz : ℤ) (h : sz ∈ sizes) :
    (levelOf sizes sz).isSome = true := by
  cases hfi : sizes.findIdx? (fun s => decide (s = sz)) with
  | none =>
    have h2 : (sizes.findIdx? (fun s => decide (s = sz))).isSome =
        sizes.any (fun s => decide (s = sz)) := List.findIdx?_isSome
    rw [hfi] at h2
    have h3 : sizes.any (fun s => decide (s = sz)) = true :=
      List.any_eq_true.mpr ⟨sz, h, by simp⟩
    rw [h3] at h2
    cases h2
  | some i => simp [levelOf, hfi]

theorem outlineGo_emits (lm : ℤ → Option Nat) :
    ∀ (pend : List ALine) (seen : List PStr) (l : ALine),
      l ∈ pend → (lm l.size).isSome = true →
      l.txt ∈ seen ∨ ∃ e ∈ outlineGo lm pend seen, e.text = l.txt := by
  intro pend
  induction pend with
  | nil =>
    intro seen l hmem
    cases hmem
  | cons a rest ih =>
    intro seen l hmem hsome
    rcases List.mem_cons.mp hmem with rfl | hmem2
    · rcases Option.isSome_iff_exists.mp hsome with ⟨lvl, hlvl⟩
      by_cases hseen : l.txt ∈ seen
      · exact Or.inl hseen
      · refine Or.inr ⟨⟨lvl, l.txt, l.pg⟩, ?_, rfl⟩
        simp [outlineGo, hlvl, hseen]
    · cases hlm : lm a.size with
      | none =>
        rcases ih seen l hmem2 hsome with h | ⟨e, he, het⟩
        · exact Or.inl h
        · exact Or.inr ⟨e, by simpa [outlineGo, hlm] using he, het⟩
      | some lvl =>
        by_cases hseen : a.txt ∈ seen
        · rcases ih seen l hmem2 hsome with h | ⟨e, he, het⟩
          · exact Or.inl h
          · exact Or.inr ⟨e, by simpa [outlineGo, hlm, hseen] using he, het⟩
        · rcases ih (a.txt :: seen) l hmem2 hsome with h | ⟨e, he, het⟩
          · rcases List.mem_cons.mp h with heq | hs
            · refine Or.inr ⟨⟨lvl, a.txt, a.pg⟩, ?_, by simp [heq]⟩
              simp [outlineGo, hlm, hseen]
            · exact Or.inl hs
          · refine Or.inr ⟨e, ?_, het⟩
            simp only [outlineGo, hlm, hseen, if_false]
            exact List.mem_cons_of_mem _ he

/-- C10: the title line is not excluded from the outline — when the topmost
page-1 line's size is among the document's top-3 distinct sizes, its text is
both the document title and the text of some outline entry. -/
theorem c10_title_also_outline_entry (doc : List (List ASpan)) (stem : PStr)
    (l : ALine)
    (htop : (insSortBy y0Le ((linesOf1a doc).filter
      (fun x => decide (x.pg = 1)))).head? = some l)
    (hsz : l.size ∈ topSizes ((linesOf1a doc).map (·.size))) :
    (extract_outline doc stem).title = l.txt ∧
    ∃ e ∈ (extract_outline doc stem).outline, e.text = l.txt := by
  constructor
  · rcases List.head?_eq_some_iff.mp htop with ⟨ys, heq⟩
    show titleOf (linesOf1a doc) stem = l.txt
    rw [titleOf, heq]
  · have hl : l ∈ linesOf1a doc := by
      rcases List.head?_eq_some_iff.mp htop with ⟨ys, heq⟩
      have h1 : l ∈ insSortBy y0Le ((linesOf1a doc).filter
          (fun x => decide (x.pg = 1))) := by
        rw [heq]; exact List.mem_cons_self l ys
      exact List.mem_of_mem_filter ((mem_insSortBy _ _ _).mp h1)
    have hsome : (levelOf (topSizes ((linesOf1a doc).map (·.size))) l.size).isSome
        = true := levelOf_isSome _ _ hsz
    rcases outlineGo_emits (levelOf (topSizes ((linesOf1a doc).map (·.size))))
        (linesOf1a doc) [] l hl hsome with h | h
    · cases h
    · exact h

/-- C10 witness: a one-page document whose topmost line ("T", size 12.0) is in
the top-3 sizes; its text is both the title and an outline entry text. -/
theorem c10_witness :
    (insSortBy y0Le ((linesOf1a [[⟨[ucU 84], 120, 0, 5⟩, ⟨[ucL 98], 100, 0, 100⟩]]).filter
        (fun x => decide (x.pg = 1)))).head? = some ⟨1, [ucU 84], 120, 5, 1⟩ ∧
    ((extract_outline [[⟨[ucU 84], 120, 0, 5⟩, ⟨[ucL 98], 100, 0, 100⟩]] []).title
        = [ucU 84] ∧
      ∃ e ∈ (extract_outline [[⟨[ucU 84], 120, 0, 5⟩, ⟨[ucL 98], 100, 0, 100⟩]] []).outline,
        e.text = [ucU 84]) :=
  ⟨by decide,
    c10_title_also_outline_entry [[⟨[ucU 84], 120, 0, 5⟩, ⟨[ucL 98], 100, 0, 100⟩]] []
      ⟨1, [ucU 84], 120, 5, 1⟩ (by decide) (by decide)⟩

/-!  ## The strict/fallback merge of `extract_sections` (C3) -/

theorem mergeGo_eq :
    ∀ (pend : List Sec) (merged : List Sec) (seen : List PStr),
      merged.length < 5 →
      mergeGo pend merged seen =
        (merged ++ keepFirsts (·.section_title) pend seen).take 5 := by
  intro pend
  induction pend with
  | nil =>
    intro merged seen h
    simp [mergeGo, keepFirsts, List.take_of_length_le (Nat.le_of_lt h)]
  | cons s rest ih =>
    intro merged seen h
    by_cases hmem : s.section_title ∈ seen
    · have hgo : mergeGo (s :: rest) merged seen = mergeGo rest merged seen := by
        simp [mergeGo, hmem, Nat.not_le_of_lt h]
      rw [hgo, ih merged seen h]
      simp [keepFirsts, hmem]
    · by_cases hlen : 5 ≤ (merged ++ [s]).length
      · have h5 : (merged ++ [s]).length = 5 := by
          simp only [List.length_append, List.length_cons, List.length_nil] at hlen ⊢
          omega
        have hgo : mergeGo (s :: rest) merged seen = merged ++ [s] := by
          simp only [mergeGo, if_neg hmem]
          rw [if_pos hlen]
        rw [hgo]
        rw [show keepFirsts (fun x => x.section_title) (s :: rest) seen =
            s :: keepFirsts (fun x => x.section_title) rest (s.section_title :: seen) by
          simp [keepFirsts, hmem]]
        rw [show merged ++ s :: keepFirsts (fun x => x.section_title) rest
              (s.section_title :: seen) =
            (merged ++ [s]) ++ keepFirsts (fun x => x.section_title) rest
              (s.section_title :: seen) by simp]
        rw [← h5, List.take_left]
      · have hgo : mergeGo (s :: rest) merged seen =
            mergeGo rest (merged ++ [s]) (s.section_title :: seen) := by
          simp only [mergeGo, if_neg hmem]
          rw [if_neg hlen]
        rw [hgo, ih _ _ (Nat.lt_of_not_le hlen)]
        simp [keepFirsts, hmem]

/-- C3: when the strict pass yields fewer than 5 sections, `extract_sections`
returns the strict sections followed by the fallback sections (whose heading
criterion is exactly: size among the top-3 AND at most 8 words),
de-duplicated by exact title keeping the earliest instance, truncated at 5;
when the strict pass yields 5 or more, it returns exactly the first 5 strict
sections and the fallback is skipped. -/
theorem c3_fallback_merge :
    (∀ raw : List BSpan,
      extract_sections raw =
        if (strictSections (collapsedOf raw)).length < 5 then
          (keepFirsts (·.section_title)
            (strictSections (collapsedOf raw) ++
              fallbackSections (collapsedOf raw)) []).take 5
        else (strictSections (collapsedOf raw)).take 5) ∧
    (∀ (ts : List ℤ) (l : CLine),
      fallbackHead ts l = true ↔
        (l.size ∈ ts ∧ (pySplit l.txt).length ≤ 8)) := by
  constructor
  · intro raw
    by_cases hempty : (collect1b raw).isEmpty = true
    · have hc : collect1b raw = [] := List.isEmpty_eq_true.mp hempty
      have hcol : collapsedOf raw = [] := by
        simp [collapsedOf, hc, sortSpansByY0, insSortBy, buckets1b]
      have hstrict : strictSections (collapsedOf raw) = [] := by
        rw [hcol]; rfl
      have hfall : fallbackSections (collapsedOf raw) = [] := by
        rw [hcol]; rfl
      simp [extract_sections, hempty, hstrict, hfall, keepFirsts]
    · by_cases hlt : (strictSections (collapsedOf raw)).length < 5
      · have hx : extract_sections raw =
            mergeGo (strictSections (collapsedOf raw) ++
              fallbackSections (collapsedOf raw)) [] [] := by
          simp [extract_sections, hempty, hlt]
        rw [hx, mergeGo_eq _ [] [] (by norm_num)]
        simp [hlt]
      · have hx : extract_sections raw = (strictSections (collapsedOf raw)).take 5 := by
          simp [extract_sections, hempty, hlt]
        rw [hx]
        simp [hlt]
  · intro ts l
    simp [fallbackHead]

/-!  ## Span provenance of buckets (C1) -/

theorem addToBuckets_mem (s : ASpan) :
    ∀ (acc : List (List ASpan)) (b : List ASpan) (x : ASpan),
      b ∈ addToBuckets s acc → x ∈ b → (∃ b0 ∈ acc, x ∈ b0) ∨ x = s := by
  intro acc
  induction acc with
  | nil =>
    intro b x hb hx
    simp only [addToBuckets, List.mem_singleton] at hb
    subst hb
    simp only [List.mem_singleton] at hx
    exact Or.inr hx
  | cons b0 bs ih =>
    intro b x hb hx
    by_cases hcl : |bucketRefY b0 - s.y0| < 2
    · simp only [addToBuckets, if_pos hcl, List.mem_cons] at hb
      rcases hb with rfl | hb2
      · rcases List.mem_append.mp hx with h1 | h2
        · exact Or.inl ⟨b0, by simp, h1⟩
        · simp only [List.mem_singleton] at h2
          exact Or.inr h2
      · exact Or.inl ⟨b, by simp [hb2], hx⟩
    · simp only [addToBuckets, if_neg hcl, List.mem_cons] at hb
      rcases hb with rfl | hb2
      · exact Or.inl ⟨b, by simp, hx⟩
      · rcases ih b x hb2 hx with ⟨b1, hb1, hxb1⟩ | heq
        · exact Or.inl ⟨b1, by simp [hb1], hxb1⟩
        · exact Or.inr heq

theorem buckets1a_mem (spans : List ASpan) (b : List ASpan) (x : ASpan)
    (hb : b ∈ buckets1a spans) (hx : x ∈ b) : x ∈ spans := by
  suffices h : ∀ (l : List ASpan) (acc : List (List ASpan)) (b : List ASpan) (x : ASpan),
      b ∈ l.foldl (fun a s => addToBuckets s a) acc → x ∈ b →
      (∃ b0 ∈ acc, x ∈ b0) ∨ x ∈ l by
    rcases h spans [] b x hb hx with ⟨b0, hb0, _⟩ | h2
    · cases hb0
    · exact h2
  intro l
  induction l with
  | nil =>
    intro acc b x hb hx
    exact Or.inl ⟨b, hb, hx⟩
  | cons s rest ih =>
    intro acc b x hb hx
    rcases ih (addToBuckets s acc) b x hb hx with ⟨b0, hb0, hxb0⟩ | h2
    · rcases addToBuckets_mem s acc b0 x hb0 hxb0 with ⟨b1, hb1, hxb1⟩ | heq
      · exact Or.inl ⟨b1, hb1, hxb1⟩
      · exact Or.inr (by simp [heq])
    · exact Or.inr (List.mem_cons_of_mem s h2)

theorem numberFrom_mem (l : List α) :
    ∀ (n i : Nat) (x : α), (i, x) ∈ numberFrom n l →
      n ≤ i ∧ l.get? (i - n) = some x := by
  induction l with
  | nil =>
    intro n i x h
    simp [numberFrom] at h
  | cons y ys ih =>
    intro n i x h
    simp only [numberFrom, List.mem_cons] at h
    rcases h with heq | h2
    · cases heq
      exact ⟨Nat.le_refl n, by simp [List.get?]⟩
    · rcases ih (n + 1) i x h2 with ⟨hle, hget⟩
      refine ⟨Nat.le_of_succ_le hle, ?_⟩
      have hi : i - n = (i - (n + 1)) + 1 := by omega
      rw [hi]
      simpa [List.get?] using hget

/-- C1 (amended): in the outline pipeline every produced line bucket draws all
its spans from a single page — the grouping runs page by page.  (In the
section pipeline this fails: see the counterexample.) -/
theorem c1_outline_buckets_single_page (doc : List (List ASpan))
    (pr : Nat × List ASpan) (hpr : pr ∈ pageBuckets doc) :
    ∃ raw, doc.get? (pr.1 - 1) = some raw ∧ ∀ s ∈ pr.2, s ∈ collect1a raw := by
  have h0 : pr ∈ ((numberFrom 1 doc).map fun q =>
      (buckets1a (collect1a q.2)).map (fun b => (q.1, b))).flatten := hpr
  rcases List.mem_flatten.mp h0 with ⟨L, hL, hprL⟩
  rcases List.mem_map.mp hL with ⟨q, hq, rfl⟩
  rcases List.mem_map.mp hprL with ⟨b, hb, rfl⟩
  rcases numberFrom_mem doc 1 q.1 q.2 (by simpa using hq) with ⟨hle, hget⟩
  exact ⟨q.2, by simpa using hget, fun s hs => buckets1a_mem _ b s hb hs⟩

/-- C1 witness: a one-page document, with the theorem's hypotheses discharged
at the concrete input. -/
theorem c1_single_page_witness :
    ((1, [⟨[ucU 65], 120, 0, 10⟩]) : Nat × List ASpan) ∈
        pageBuckets [[⟨[ucU 65], 120, 0, 10⟩]] ∧
    ∃ raw, [[(⟨[ucU 65], 120, 0, 10⟩ : ASpan)]].get? (1 - 1) = some raw ∧
      ∀ s ∈ [(⟨[ucU 65], 120, 0, 10⟩ : ASpan)], s ∈ collect1a raw :=
  ⟨by decide, c1_outline_buckets_single_page [[⟨[ucU 65], 120, 0, 10⟩]]
    (1, [⟨[ucU 65], 120, 0, 10⟩]) (by decide)⟩

/-- C1 counterexample: in the section pipeline, two spans from DIFFERENT pages
(page 1 at `y0 = 10` and page 2 at `y0 = 11`) fall into one bucket, because
the span list of the whole document is sorted by `y0` alone and bucketed with
tolerance 3 ignoring the page — so a produced line mixes spans of two pages,
refuting the claim for the section pipeline. -/
theorem c1_counterexample :
    ∃ b ∈ buckets1b (sortSpansByY0 (collect1b
        [⟨1, [ucU 65, ucL 98], 120, 10, 0⟩, ⟨2, [ucU 67, ucL 100], 120, 11, 0⟩])),
      ∃ s1 ∈ b, ∃ s2 ∈ b, s1.pg ≠ s2.pg := by
  decide

/-!  ## The distinct-document selection (C4) -/

theorem selGo_eq (up low : UChar → UChar) :
    ∀ (pend : List FSec) (final : List FSec) (seen : List String),
      final.length < 5 →
      selGo up low pend final seen =
        (final ++ (keepFirsts (·.filename) pend seen).map (cleanSec up low)).take 5 := by
  intro pend
  induction pend with
  | nil =>
    intro final seen h
    simp [selGo, keepFirsts, List.take_of_length_le (Nat.le_of_lt h)]
  | cons s rest ih =>
    intro final seen h
    by_cases hmem : s.filename ∈ seen
    · have hgo : selGo up low (s :: rest) final seen = selGo up low rest final seen := by
        simp only [selGo, if_pos hmem]
        rw [if_neg (Nat.ne_of_lt h)]
      rw [hgo, ih final seen h]
      simp [keepFirsts, hmem]
    · by_cases hlen : (final ++ [cleanSec up low s]).length = 5
      · have hgo : selGo up low (s :: rest) final seen = final ++ [cleanSec up low s] := by
          simp only [selGo, if_neg hmem]
          rw [if_pos hlen]
        rw [hgo]
        rw [show keepFirsts (fun x => x.filename) (s :: rest) seen =
            s :: keepFirsts (fun x => x.filename) rest (s.filename :: seen) by
          simp [keepFirsts, hmem]]
        rw [show final ++ (s :: keepFirsts (fun x => x.filename) rest
              (s.filename :: seen)).map (cleanSec up low) =
            (final ++ [cleanSec up low s]) ++
              (keepFirsts (fun x => x.filename) rest
                (s.filename :: seen)).map (cleanSec up low) by simp]
        rw [← hlen, List.take_left]
      · have hgo : selGo up low (s :: rest) final seen =
            selGo up low rest (final ++ [cleanSec up low s]) (s.filename :: seen) := by
          simp only [selGo, if_neg hmem]
          rw [if_neg hlen]
        have hlt : (final ++ [cleanSec up low s]).length < 5 := by
          simp only [List.length_append, List.length_cons, List.length_nil] at hlen ⊢
          omega
        rw [hgo, ih _ _ hlt]
        simp [keepFirsts, hmem]

theorem numberFrom_map_fst (l : List α) :
    ∀ n : Nat, (numberFrom n l).map Prod.fst = List.range' n l.length := by
  induction l with
  | nil => intro n; simp [numberFrom]
  | cons x xs ih =>
    intro n
    simp only [numberFrom, List.map_cons, List.length_cons, List.range'_succ, ih]

theorem scoreGe_total (a b : FSec) : scoreGe a b = true ∨ scoreGe b a = true := by
  rcases le_total a.score b.score with h | h
  · exact Or.inr (by simp [scoreGe, h])
  · exact Or.inl (by simp [scoreGe, h])

theorem scoreGe_trans (a b c : FSec) (h1 : scoreGe a b = true)
    (h2 : scoreGe b c = true) : scoreGe a c = true := by
  simp only [scoreGe, decide_eq_true_eq] at h1 h2 ⊢
  exact h2.trans h1

/-- C4: when the candidate sections span at least 5 distinct documents, the
final selection has exactly 5 sections from 5 pairwise-distinct documents;
it is obtained by walking the score-sorted list keeping the first section of
each document (title cleaned) and truncating at 5, its scores descend, and
`enumerate(..., start=1)` assigns importance ranks 1..5 in selection order. -/
theorem c4_distinct_document_selection (up low : UChar → UChar) (secs : List FSec)
    (h5 : 5 ≤ (secs.map (·.filename)).toFinset.card) :
    (rankSelection up low secs).length = 5 ∧
    ((rankSelection up low secs).map (·.filename)).Nodup ∧
    rankSelection up low secs =
      ((keepFirsts (·.filename) (insSortBy scoreGe secs) []).take 5).map
        (cleanSec up low) ∧
    ((rankSelection up low secs).map (·.score)).Pairwise (fun a b => b ≤ a) ∧
    (numberFrom 1 (rankSelection up low secs)).map Prod.fst = [1, 2, 3, 4, 5] := by
  have hperm : (insSortBy scoreGe secs).Perm secs := insSortBy_perm _ _
  have hkeys : ((insSortBy scoreGe secs).map (·.filename)).toFinset =
      (secs.map (·.filename)).toFinset :=
    List.toFinset_eq_of_perm _ _ (hperm.map _)
  have hlenkeep : (keepFirsts (·.filename) (insSortBy scoreGe secs) []).length =
      (secs.map (·.filename)).toFinset.card := by
    rw [keepFirsts_length, hkeys]
  have hsel : rankSelection up low secs =
      ((keepFirsts (·.filename) (insSortBy scoreGe secs) []).map
        (cleanSec up low)).take 5 := by
    have h0 := selGo_eq up low (insSortBy scoreGe secs) [] [] (by norm_num)
    simpa [rankSelection] using h0
  have hsel2 : rankSelection up low secs =
      ((keepFirsts (·.filename) (insSortBy scoreGe secs) []).take 5).map
        (cleanSec up low) := by
    rw [hsel, List.map_take]
  have hfileclean : ∀ x : FSec, (cleanSec up low x).filename = x.filename := by
    intro x
    rfl
  have hlen : (rankSelection up low secs).length = 5 := by
    rw [hsel, List.length_take, List.length_map, hlenkeep]
    exact Nat.min_eq_left h5
  refine ⟨hlen, ?_, hsel2, ?_, ?_⟩
  · rw [hsel2, List.map_map]
    have hmapeq : ((keepFirsts (·.filename) (insSortBy scoreGe secs) []).take 5).map
        ((·.filename) ∘ cleanSec up low) =
        ((keepFirsts (·.filename) (insSortBy scoreGe secs) []).take 5).map
          (·.filename) := by
      refine List.map_congr_left ?_
      intro x _
      rfl
    rw [hmapeq, List.map_take]
    refine (List.take_sublist 5 _).nodup ?_
    exact (keepFirsts_keys_nodup (·.filename) (insSortBy scoreGe secs) []).1
  · have hsorted : (insSortBy scoreGe secs).Pairwise (fun a b => scoreGe a b = true) :=
      insSortBy_pairwise scoreGe scoreGe_total scoreGe_trans secs
    have hsub : ((keepFirsts (·.filename) (insSortBy scoreGe secs) []).take 5).Sublist
        (insSortBy scoreGe secs) :=
      (List.take_sublist 5 _).trans (keepFirsts_sublist _ _ _)
    have hpw := List.Pairwise.sublist hsub hsorted
    rw [hsel2]
    rw [List.map_map]
    refine List.pairwise_map.mpr ?_
    refine hpw.imp ?_
    intro a b hab
    simpa [scoreGe, cleanSec] using hab
  · rw [numberFrom_map_fst, hlen]
    rfl

/-- C4 witness: five sections from five distinct documents; the ranking keeps
exactly 5. -/
theorem c4_distinct_document_witness :
    5 ≤ (exSecs.map (·.filename)).toFinset.card ∧
    (rankSelection asciiUp asciiLow exSecs).length = 5 :=
  ⟨by decide,
    (c4_distinct_document_selection asciiUp asciiLow exSecs (by decide)).1⟩

/-!  ## Sentence refinement order (C5) -/

theorem sortNatAsc_sorted (l : List Nat) : (sortNatAsc l).Pairwise (· ≤ ·) := by
  have h := insSortBy_pairwise (fun a b => decide (a ≤ b))
    (fun a b => by
      rcases Nat.le_total a b with hab | hab
      · exact Or.inl (by simpa using hab)
      · exact Or.inr (by simpa using hab))
    (fun a b c h1 h2 => by
      simp only [decide_eq_true_eq] at h1 h2 ⊢
      exact h1.trans h2) l
  exact h.imp (fun hab => by simpa using hab)

theorem sortNatAsc_eq_filter_range (l : List Nat) (n : Nat)
    (hnd : l.Nodup) (hlt : ∀ x ∈ l, x < n) :
    sortNatAsc l = (List.range n).filter (fun x => decide (x ∈ l)) := by
  have hperm1 : (sortNatAsc l).Perm l := insSortBy_perm _ l
  have hnd2 : ((List.range n).filter (fun x => decide (x ∈ l))).Nodup :=
    (List.nodup_range n).filter _
  have hmem : ∀ a, a ∈ sortNatAsc l ↔
      a ∈ (List.range n).filter (fun x => decide (x ∈ l)) := by
    intro a
    rw [hperm1.mem_iff, List.mem_filter, List.mem_range]
    constructor
    · intro ha
      exact ⟨hlt a ha, by simpa using ha⟩
    · rintro ⟨_, ha⟩
      simpa using ha
  have hperm : (sortNatAsc l).Perm ((List.range n).filter (fun x => decide (x ∈ l))) :=
    (List.perm_ext_iff_of_nodup (hperm1.nodup_iff.mpr hnd) hnd2).mpr hmem
  have hs1 : List.Sorted (· ≤ ·) (sortNatAsc l) := sortNatAsc_sorted l
  have hs2 : List.Sorted (· ≤ ·)
      ((List.range n).filter (fun x => decide (x ∈ l))) :=
    ((List.pairwise_lt_range n).filter _).imp Nat.le_of_lt
  exact List.eq_of_perm_of_sorted hperm hs1 hs2

theorem topkIdxs_nodup (sims : List ℚ) (k : Nat) : (topkIdxs sims k).Nodup := by
  have hperm : (insSortBy (fun i j => decide (sims.getD j 0 ≤ sims.getD i 0))
      (List.range sims.length)).Perm (List.range sims.length) := insSortBy_perm _ _
  exact (List.take_sublist k _).nodup (hperm.nodup_iff.mpr (List.nodup_range _))

theorem topkIdxs_lt (sims : List ℚ) (k : Nat) :
    ∀ x ∈ topkIdxs sims k, x < sims.length := by
  intro x hx
  have h1 : x ∈ insSortBy (fun i j => decide (sims.getD j 0 ≤ sims.getD i 0))
      (List.range sims.length) := (List.take_sublist k _).subset hx
  exact List.mem_range.mp ((mem_insSortBy _ _ _).mp h1)

/-- C5: when a section content splits into at least one sentence, the refined
text is the concatenation (single spaces) of exactly the sentences whose index
is among the top min(3, count) by similarity, listed in increasing original
position — positional order, not similarity-rank order. -/
theorem c5_refined_text_positional (simSent : PStr → ℚ) (cont : PStr)
    (h : sentsOf cont ≠ []) :
    refineText simSent cont =
      List.intercalate [spaceChar]
        (((List.range (sentsOf cont).length).filter
            (fun i => decide (i ∈ topkIdxs ((sentsOf cont).map simSent)
              (min 3 (sentsOf cont).length)))).map
          (fun i => (sentsOf cont).getD i [])) := by
  have hne : (sentsOf cont).isEmpty = false := by
    cases hh : (sentsOf cont).isEmpty
    · rfl
    · exact absurd (List.isEmpty_eq_true.mp hh) h
  have hb : ∀ x ∈ topkIdxs ((sentsOf cont).map simSent) (min 3 (sentsOf cont).length),
      x < (sentsOf cont).length := by
    intro x hx
    have h2 := topkIdxs_lt ((sentsOf cont).map simSent) (min 3 (sentsOf cont).length) x hx
    simpa using h2
  have hnd := topkIdxs_nodup ((sentsOf cont).map simSent) (min 3 (sentsOf cont).length)
  simp only [refineText, hne, Bool.false_eq_true, if_false, refineFromSents]
  rw [sortNatAsc_eq_filter_range _ (sentsOf cont).length hnd hb]

/-- C5 witness: five sentences with similarities selecting original positions
3, 0 and 2; the refined text is the sentences at positions 0, 2, 3 in that
order, joined by spaces. -/
theorem c5_refined_text_witness :
    sentsOf exCont ≠ [] ∧
    topkIdxs ((sentsOf exCont).map exSim) (min 3 (sentsOf exCont).length) = [3, 0, 2] ∧
    refineText exSim exCont =
      List.intercalate [spaceChar]
        (((List.range (sentsOf exCont).length).filter
            (fun i => decide (i ∈ topkIdxs ((sentsOf exCont).map exSim)
              (min 3 (sentsOf exCont).length)))).map
          (fun i => (sentsOf exCont).getD i [])) ∧
    refineText exSim exCont =
      [ucL 97, ucP 46, spaceChar, ucL 97, ucL 97, ucL 97, ucP 46, spaceChar,
       ucL 97, ucL 97, ucL 97, ucL 97, ucP 46] :=
  ⟨by decide, by decide, c5_refined_text_positional exSim exCont (by decide), by decide⟩
